import Mathlib

/-!  Verification of the seekr track-matching core (src/seekr.py).

Strings are modelled as `List Char` (Python `str`), ASCII-faithfully:
Python's `str.lower` is modelled by mapping `Char.toLower`, which performs
exactly the ASCII case mapping that matters for the fixed patterns of the
source.  The `re` patterns of the source are embedded as bespoke matchers
whose semantics follow Python's leftmost, non-overlapping `re.sub`/`re.split`
scanning.  The `rapidfuzz` scorer is an external capability (spec 4.3) and
is a parameter `sim` throughout. -/

/-- List-of-chars view of a string literal. -/
def strL (s : String) : List Char := s.data

/-- Python whitespace (its ASCII part), as used by str.strip and regex \s. -/
def isPySpace (c : Char) : Bool :=
  c = ' ' || c = '\t' || c = '\n' || c = '\r' || c = '\x0b' || c = '\x0c'

/-- Python str.lower (ASCII case mapping). -/
def lowerL (s : List Char) : List Char := s.map Char.toLower

/-- Python str.strip: drop leading and trailing whitespace. -/
def stripL (s : List Char) : List Char :=
  ((s.dropWhile isPySpace).reverse.dropWhile isPySpace).reverse

/-- Python str.replace(pat, ''): remove every non-overlapping occurrence of
pat, scanning left to right over the original string.  Fuel bounds the scan
(one character or one occurrence per step); every call site in the source
uses a non-empty pattern, which the guard reflects. -/
def pyRemoveAux (pat : List Char) : Nat → List Char → List Char
  | 0, s => s
  | _+1, [] => []
  | fuel+1, c :: rest =>
    if pat ≠ [] ∧ pat.isPrefixOf (c :: rest) then
      pyRemoveAux pat fuel ((c :: rest).drop pat.length)
    else
      c :: pyRemoveAux pat fuel rest

def pyRemove (pat s : List Char) : List Char := pyRemoveAux pat s.length s

/-- ORIGINAL_MIX_PATTERNS from the source, each with its .title() and
.upper() casing (evaluated from the literals, as the source does per
replacement). -/
def ORIGINAL_MIX_PATTERNS : List (List Char × List Char × List Char) :=
  [ (strL r"(original mix)", strL r"(Original Mix)", strL r"(ORIGINAL MIX)"),
    (strL r"original mix", strL r"Original Mix", strL r"ORIGINAL MIX"),
    (strL r"(orig mix)", strL r"(Orig Mix)", strL r"(ORIG MIX)"),
    (strL r"orig mix", strL r"Orig Mix", strL r"ORIG MIX") ]

/-- strip_mix_annotations from the source (shortened name): for each pattern
remove its literal, title-cased and upper-cased casing, then strip. -/
def strip_mix_tags (s : List Char) : List Char :=
  stripL (ORIGINAL_MIX_PATTERNS.foldl
    (fun t p => pyRemove p.2.2 (pyRemove p.2.1 (pyRemove p.1 t))) s)

/-- Index of the first close-paren, provided no newline precedes it (a regex
dot does not match a newline), none otherwise.  This is where the non-greedy
".*?)" of the feature patterns ends. -/
def findClose : List Char → Option Nat
  | [] => none
  | c :: rest =>
    if c = ')' then some 0
    else if c = '\n' then none
    else (findClose rest).map (fun k => k + 1)

/-- Number of characters a regex ".*$" consumes from this point on (the end
of the list is the end of the string): everything when no newline remains;
everything but a single trailing newline ($ matches just before it); no
match otherwise. -/
def tailLen (u : List Char) : Option Nat :=
  if u.contains '\n' = false then some u.length
  else if u.getLast? = some '\n' ∧ u.dropLast.contains '\n' = false then
    some (u.length - 1)
  else none

/-- Matcher for the raw pattern of a parenthesized "(ft ...)" span,
IGNORECASE: the optional dot is absorbed by the non-greedy dot-star. -/
def matchFtParen : List Char → Option Nat
  | '(' :: c1 :: c2 :: rest =>
    if c1.toLower = 'f' ∧ c2.toLower = 't' then
      (findClose rest).map (fun k => k + 4)
    else none
  | _ => none

/-- Matcher for a parenthesized "(feat ...)" span, IGNORECASE. -/
def matchFeatParen : List Char → Option Nat
  | '(' :: c1 :: c2 :: c3 :: c4 :: rest =>
    if c1.toLower = 'f' ∧ c2.toLower = 'e' ∧ c3.toLower = 'a' ∧ c4.toLower = 't' then
      (findClose rest).map (fun k => k + 6)
    else none
  | _ => none

/-- Matcher for a trailing clause ", ft ..." to end of string, IGNORECASE:
a comma, then the whitespace run (the star is forced maximal because "f" is
not whitespace), then "ft", then a dot-star to the dollar anchor. -/
def matchCommaFt : List Char → Option Nat
  | ',' :: rest =>
    match rest.drop (rest.takeWhile isPySpace).length with
    | c1 :: c2 :: u =>
      if c1.toLower = 'f' ∧ c2.toLower = 't' then
        (tailLen u).map (fun k => (rest.takeWhile isPySpace).length + 3 + k)
      else none
    | _ => none
  | _ => none

/-- Matcher for a trailing clause ", feat ..." to end of string, IGNORECASE. -/
def matchCommaFeat : List Char → Option Nat
  | ',' :: rest =>
    match rest.drop (rest.takeWhile isPySpace).length with
    | c1 :: c2 :: c3 :: c4 :: u =>
      if c1.toLower = 'f' ∧ c2.toLower = 'e' ∧ c3.toLower = 'a' ∧ c4.toLower = 't' then
        (tailLen u).map (fun k => (rest.takeWhile isPySpace).length + 5 + k)
      else none
    | _ => none
  | _ => none

/-- Matcher for a trailing clause " ft ..." (one or more whitespace, forced
maximal) to end of string, IGNORECASE. -/
def matchWsFt : List Char → Option Nat
  | c :: rest =>
    if isPySpace c then
      match rest.drop (rest.takeWhile isPySpace).length with
      | c1 :: c2 :: u =>
        if c1.toLower = 'f' ∧ c2.toLower = 't' then
          (tailLen u).map (fun k => (rest.takeWhile isPySpace).length + 3 + k)
        else none
      | _ => none
    else none
  | [] => none

/-- Matcher for a trailing clause " feat ..." to end of string, IGNORECASE. -/
def matchWsFeat : List Char → Option Nat
  | c :: rest =>
    if isPySpace c then
      match rest.drop (rest.takeWhile isPySpace).length with
      | c1 :: c2 :: c3 :: c4 :: u =>
        if c1.toLower = 'f' ∧ c2.toLower = 'e' ∧ c3.toLower = 'a' ∧ c4.toLower = 't' then
          (tailLen u).map (fun k => (rest.takeWhile isPySpace).length + 5 + k)
        else none
      | _ => none
    else none
  | [] => none

/-- re.sub with empty replacement: scan left to right; at each position try
the matcher; on a match drop the matched span and continue after it in the
original string.  All six matchers only ever match at least three
characters, so a zero-length answer is treated as no match. -/
def pySubAux (m : List Char → Option Nat) : Nat → List Char → List Char
  | 0, s => s
  | _+1, [] => []
  | fuel+1, c :: rest =>
    match m (c :: rest) with
    | some (n+1) => pySubAux m fuel (rest.drop n)
    | _ => c :: pySubAux m fuel rest

def pySub (m : List Char → Option Nat) (s : List Char) : List Char :=
  pySubAux m s.length s

/-- FEAT_PATTERNS from the source, in their order. -/
def FEAT_PATTERNS : List (List Char → Option Nat) :=
  [matchFtParen, matchFeatParen, matchCommaFt, matchCommaFeat, matchWsFt, matchWsFeat]

/-- strip_features from the source: apply the six feature patterns in
order, then strip. -/
def strip_features (s : List Char) : List Char :=
  stripL (FEAT_PATTERNS.foldl (fun t m => pySub m t) s)

/-- norm from the source: lowercase, strip mixes and features, trim.  The
"(s or '')" None-coercion of the source is applied by callers that hold an
optional value. -/
def norm (s : List Char) : List Char :=
  stripL (strip_features (strip_mix_tags (lowerL s)))

/-- Python regex word characters (ASCII part), for the \b boundary. -/
def isWordChar (c : Char) : Bool := c.isAlphanum || c = '_'

/-- Whether regex \band\b (IGNORECASE) matches at a position whose previous
character is prev (none at the start of the string). -/
def andBoundary (prev : Option Char) (c c2 c3 : Char) (rest2 : List Char) : Bool :=
  (c.toLower == 'a') && (c2.toLower == 'n') && (c3.toLower == 'd')
  && (match prev with | none => true | some q => !isWordChar q)
  && (match rest2 with | [] => true | d :: _ => !isWordChar d)

/-- Prepend a character to the first piece. -/
def consHead (c : Char) : List (List Char) → List (List Char)
  | [] => [[c]]
  | p :: ps => (c :: p) :: ps

/-- re.split on [,&/;]|\band\b (IGNORECASE): the pieces between leftmost
non-overlapping matches.  The single-character class and the word "and"
can never match at the same position, so the scan tries them in order. -/
def splitReAux : Nat → Option Char → List Char → List (List Char)
  | 0, _, s => [s]
  | _+1, _, [] => [[]]
  | fuel+1, prev, c :: rest =>
    if c = ',' ∨ c = '&' ∨ c = '/' ∨ c = ';' then
      [] :: splitReAux fuel (some c) rest
    else
      match rest with
      | c2 :: c3 :: rest2 =>
        if andBoundary prev c c2 c3 rest2 then
          [] :: splitReAux fuel (some c3) rest2
        else
          consHead c (splitReAux fuel (some c) rest)
      | _ => consHead c (splitReAux fuel (some c) rest)

/-- split_artists from the source: split on the delimiters, strip each
piece, and keep only the non-empty ones. -/
def split_artists (s : List Char) : List (List Char) :=
  ((splitReAux s.length none s).map stripL).filter (fun p => !p.isEmpty)

/-- A scored Rekordbox hit: the dict with keys score and item. -/
structure RBHit where
  score : Nat
  item : List Char
deriving DecidableEq

/-- A scored filesystem hit: the dict with keys score, item and path. -/
structure FSHit where
  score : Nat
  item : List Char
  path : List Char
deriving DecidableEq

/-- Python sorted(key=score, reverse=True) is the stable descending sort:
each element is inserted before the first strictly smaller score, hence
after every earlier element of equal score. -/
def insertDesc (sc : α → Nat) (x : α) : List α → List α
  | [] => [x]
  | y :: ys => if sc y ≤ sc x then x :: y :: ys else y :: insertDesc sc x ys

def sortDesc (sc : α → Nat) : List α → List α
  | [] => []
  | x :: xs => insertDesc sc x (sortDesc sc xs)

/-- A Rekordbox Artist row: Name may be an absent attribute (none), None
(some none), or a string. -/
structure ArtistObj where
  Name : Option (Option (List Char))
deriving DecidableEq

/-- A Rekordbox content row.  Title: absent attribute (none), None
(some none), or a string.  For Artist, getattr(c, 'Artist', None) collapses
an absent attribute with None, so one Option layer is faithful. -/
structure Record where
  Title : Option (Option (List Char))
  Artist : Option ArtistObj
deriving DecidableEq

/-- raw_title = getattr(c, 'Title', '') or ''. -/
def rawTitleOf (r : Record) : List Char :=
  match r.Title with
  | none => []
  | some none => []
  | some (some s) => s

/-- raw_artist = getattr(raw_artist_obj, 'Name', '') if raw_artist_obj
else ''.  The result is a Python value that is None exactly when the Name
attribute is present with value None (no `or` coercion on this line of the
source). -/
def rawArtistOf (r : Record) : Option (List Char) :=
  match r.Artist with
  | none => some []
  | some a =>
    match a.Name with
    | none => some []
    | some none => none
    | some (some s) => some s

/-- Python str(x) of an optional string inside an f-string: None renders as
the four characters None. -/
def pyShow : Option (List Char) → List Char
  | none => strL r"None"
  | some s => s

/-- Python (x or '') coercion of an optional string, as done inside norm. -/
def pyOrEmpty : Option (List Char) → List Char
  | none => []
  | some s => s

/-- Python (lst or default) for a list value. -/
def pyListOr (l d : List (List Char)) : List (List Char) :=
  if l.isEmpty then d else l

/-- db_artists = split_artists(a_val) or [''] with a_val = norm(raw_artist). -/
def dbArtistsOf (r : Record) : List (List Char) :=
  pyListOr (split_artists (norm (pyOrEmpty (rawArtistOf r)))) [[]]

/-- input_artists = split_artists(artist) if artist else ['']. -/
def inputArtists (artist : List Char) : List (List Char) :=
  if artist.isEmpty then [[]] else split_artists artist

/-- item = f-string "raw_artist - raw_title". -/
def recordLabel (r : Record) : List Char :=
  pyShow (rawArtistOf r) ++ strL r" - " ++ rawTitleOf r

/-- The per-record best_score of scan_rekordbox: the loop accumulation of
the source, by query mode. -/
def bestScoreFor (sim : List Char → List Char → Nat) (title artist : List Char)
    (r : Record) : Nat :=
  if ¬title.isEmpty ∧ ¬artist.isEmpty then
    (inputArtists artist).foldl (fun acc in_a =>
      (dbArtistsOf r).foldl (fun acc2 db_a =>
        max acc2 (sim (title ++ strL r"::" ++ in_a)
                      (norm (rawTitleOf r) ++ strL r"::" ++ db_a))) acc) 0
  else if ¬title.isEmpty then
    sim title (norm (rawTitleOf r))
  else if ¬artist.isEmpty then
    (inputArtists artist).foldl (fun acc in_a =>
      (dbArtistsOf r).foldl (fun acc2 db_a => max acc2 (sim in_a db_a)) acc) 0
  else 0

/-- The results list of scan_rekordbox before the final sort: one hit per
record that clears the threshold, in record order. -/
def scanRekordboxRaw (sim : List Char → List Char → Nat) (recs : List Record)
    (title artist : List Char) (cut : Nat) : List RBHit :=
  recs.filterMap (fun r =>
    if cut ≤ bestScoreFor sim title artist r then
      some ⟨bestScoreFor sim title artist r, recordLabel r⟩
    else none)

/-- scan_rekordbox from the source. -/
def scan_rekordbox (sim : List Char → List Char → Nat) (recs : List Record)
    (title artist : List Char) (cut : Nat) : List RBHit :=
  sortDesc (fun h => h.score) (scanRekordboxRaw sim recs title artist cut)

/-- The spec's description (4.4, both-present mode) of the score: the
maximum over the product of query and database artist tokens of the
composite similarity, with an empty product scoring 0. -/
def pairsMax (sim : List Char → List Char → Nat) (title artist : List Char)
    (r : Record) : Nat :=
  ((inputArtists artist).flatMap (fun qa =>
    (dbArtistsOf r).map (fun da =>
      sim (title ++ strL r"::" ++ qa)
          (norm (rawTitleOf r) ++ strL r"::" ++ da)))).foldl max 0

/-- One filesystem object under the scan root: its path components relative
to the root (the last one is its name), whether it is a directory, and its
canonical resolved absolute path.  A list of these models the recursive
enumeration of everything under the root, in traversal order. -/
structure FileEntry where
  parts : List (List Char)
  isDir : Bool
  resolved : List Char
deriving DecidableEq

def nameOf (e : FileEntry) : List Char := e.parts.getLast?.getD []

/-- f.relative_to(basepath).parts[:-1]. -/
def dirsOf (e : FileEntry) : List (List Char) := e.parts.dropLast

/-- pathlib PurePath.stem: the name without its final suffix; a dot at the
very start or very end of the name does not begin a suffix. -/
def pyStem (name : List Char) : List Char :=
  match (name.enum.filter (fun p => p.2 == '.')).getLast? with
  | some p => if 0 < p.1 ∧ p.1 < name.length - 1 then name.take p.1 else name
  | none => name

/-- basepath.rglob('*.*') yields exactly the entries (files or directories)
whose final name component contains a dot (fnmatch semantics, dotfiles
included); it never tests whether the entry is a regular file. -/
def globDotName (e : FileEntry) : Bool := (nameOf e).contains '.'

/-- t_score = fuzz score of the query title against the normalized stem. -/
def fileTitleScore (sim : List Char → List Char → Nat) (title : List Char)
    (e : FileEntry) : Nat :=
  sim title (norm (pyStem (nameOf e)))

/-- The a_scores list: every ancestor directory, every token of its
normalized name, every query artist token, in loop order. -/
def dirArtistScores (sim : List Char → List Char → Nat)
    (input_artists : List (List Char)) (dirs : List (List Char)) : List Nat :=
  dirs.flatMap (fun d => (split_artists (norm d)).flatMap (fun db_a =>
    input_artists.map (fun in_a => sim in_a db_a)))

/-- Python (max(l) if l else 0). -/
def pyMaxD : List Nat → Nat
  | [] => 0
  | x :: xs => xs.foldl max x

/-- a_score = max(a_scores) if a_scores else 0. -/
def fileArtistScore (sim : List Char → List Char → Nat) (artist : List Char)
    (e : FileEntry) : Nat :=
  pyMaxD (dirArtistScores sim (inputArtists artist) (dirsOf e))

/-- The ok / best_score outcome of the scan_files loop body: none when the
entry is not accepted, otherwise the recorded score, by query mode. -/
def fileScore (sim : List Char → List Char → Nat) (title artist : List Char)
    (cut : Nat) (e : FileEntry) : Option Nat :=
  if ¬title.isEmpty ∧ ¬artist.isEmpty then
    if cut ≤ fileTitleScore sim title e ∧ cut ≤ fileArtistScore sim artist e then
      some (min (fileTitleScore sim title e) (fileArtistScore sim artist e))
    else none
  else if ¬title.isEmpty then
    if cut ≤ fileTitleScore sim title e then some (fileTitleScore sim title e) else none
  else if ¬artist.isEmpty then
    if cut ≤ fileArtistScore sim artist e then some (fileArtistScore sim artist e) else none
  else none

/-- The scan_files loop: accepted entries become hits unless their resolved
path was already seen. -/
def scanFilesAux (sim : List Char → List Char → Nat) (title artist : List Char)
    (cut : Nat) : List (List Char) → List FileEntry → List FSHit
  | _, [] => []
  | seen, e :: es =>
    match fileScore sim title artist cut e with
    | some sc =>
      if e.resolved ∈ seen then scanFilesAux sim title artist cut seen es
      else ⟨sc, nameOf e, e.resolved⟩ :: scanFilesAux sim title artist cut (e.resolved :: seen) es
    | none => scanFilesAux sim title artist cut seen es

/-- The results list of scan_files before the final sort. -/
def scanFilesRaw (sim : List Char → List Char → Nat) (entries : List FileEntry)
    (title artist : List Char) (cut : Nat) : List FSHit :=
  scanFilesAux sim title artist cut [] (entries.filter globDotName)

/-- scan_files from the source; entries is everything under basepath. -/
def scan_files (sim : List Char → List Char → Nat) (entries : List FileEntry)
    (title artist : List Char) (cut : Nat) : List FSHit :=
  sortDesc (fun h => h.score) (scanFilesRaw sim entries title artist cut)

/-- One processed item of main: the two hit-list lengths it stores. -/
structure ResultRow where
  rb_count : Nat
  fs_count : Nat
deriving DecidableEq

/-- rb_ct = sum(r.rb_count > 0 for r in results). -/
def rb_ct (rs : List ResultRow) : Nat :=
  (rs.map (fun r => if 0 < r.rb_count then 1 else 0)).sum

/-- fs_ct = sum(r.rb_count == 0 and r.fs_count > 0 for r in results). -/
def fs_ct (rs : List ResultRow) : Nat :=
  (rs.map (fun r => if r.rb_count = 0 ∧ 0 < r.fs_count then 1 else 0)).sum

/-- none_ct = sum(r.rb_count == 0 and r.fs_count == 0 for r in results). -/
def none_ct (rs : List ResultRow) : Nat :=
  (rs.map (fun r => if r.rb_count = 0 ∧ r.fs_count = 0 then 1 else 0)).sum

/-- The row main builds for one query item. -/
def mkRow (rb : List RBHit) (fs : List FSHit) : ResultRow := ⟨rb.length, fs.length⟩

/-- A concrete scorer for witnesses: 100 on equal strings, 0 otherwise. -/
def simEq (a b : List Char) : Nat := if a == b then 100 else 0

theorem mem_insertDesc {sc : α → Nat} {x y : α} {l : List α} :
    y ∈ insertDesc sc x l ↔ y = x ∨ y ∈ l := by
  induction l with
  | nil => simp [insertDesc]
  | cons z zs ih =>
    simp only [insertDesc]
    split
    · simp [or_comm, or_assoc, or_left_comm]
    · simp [ih]
      tauto

theorem perm_insertDesc (sc : α → Nat) (x : α) (l : List α) :
    (insertDesc sc x l).Perm (x :: l) := by
  induction l with
  | nil => simp [insertDesc]
  | cons y ys ih =>
    simp only [insertDesc]
    split
    · exact List.Perm.refl _
    · exact List.Perm.trans (List.Perm.cons y ih) (List.Perm.swap x y ys)

theorem perm_sortDesc (sc : α → Nat) (l : List α) : (sortDesc sc l).Perm l := by
  induction l with
  | nil => exact List.Perm.refl _
  | cons x xs ih =>
    simp only [sortDesc]
    exact List.Perm.trans (perm_insertDesc sc x (sortDesc sc xs)) (List.Perm.cons x ih)

theorem mem_sortDesc {sc : α → Nat} {x : α} {l : List α} :
    x ∈ sortDesc sc l ↔ x ∈ l :=
  (perm_sortDesc sc l).mem_iff

theorem sorted_insertDesc {sc : α → Nat} {x : α} {l : List α}
    (h : l.Pairwise (fun a b => sc b ≤ sc a)) :
    (insertDesc sc x l).Pairwise (fun a b => sc b ≤ sc a) := by
  induction l with
  | nil => simp [insertDesc]
  | cons y ys ih =>
    rw [List.pairwise_cons] at h
    obtain ⟨hy, hys⟩ := h
    simp only [insertDesc]
    split
    · next hle =>
      refine List.pairwise_cons.mpr ⟨?_, List.pairwise_cons.mpr ⟨hy, hys⟩⟩
      intro z hz
      rcases List.mem_cons.mp hz with rfl | hz
      · exact hle
      · exact Nat.le_trans (hy z hz) hle
    · next hgt =>
      have hlt : sc x < sc y := Nat.lt_of_not_le hgt
      refine List.pairwise_cons.mpr ⟨?_, ih hys⟩
      intro z hz
      rcases mem_insertDesc.mp hz with rfl | hz
      · exact Nat.le_of_lt hlt
      · exact hy z hz

theorem sorted_sortDesc (sc : α → Nat) (l : List α) :
    (sortDesc sc l).Pairwise (fun a b => sc b ≤ sc a) := by
  induction l with
  | nil => exact List.Pairwise.nil
  | cons x xs ih => exact sorted_insertDesc ih

theorem filter_insertDesc (sc : α → Nat) (x : α) (l : List α) (s : Nat) :
    (insertDesc sc x l).filter (fun y => sc y == s)
    = if sc x = s then x :: l.filter (fun y => sc y == s)
      else l.filter (fun y => sc y == s) := by
  induction l with
  | nil =>
    simp only [insertDesc]
    rw [show ([x].filter (fun y => sc y == s)) = if (sc x == s) = true then [x] else [] from List.filter_cons]
    by_cases h : sc x = s <;> simp [h]
  | cons y ys ih =>
    simp only [insertDesc]
    split
    · next hle =>
      rw [List.filter_cons, List.filter_cons]
      by_cases h1 : sc x = s <;> by_cases h2 : sc y = s <;>
        simp [h1, h2, List.filter_cons]
    · next hgt =>
      have hlt : sc x < sc y := Nat.lt_of_not_le hgt
      rw [List.filter_cons, ih, List.filter_cons]
      by_cases h1 : sc y = s <;> by_cases h2 : sc x = s <;> (simp [h1, h2]; try omega)

theorem filter_sortDesc (sc : α → Nat) (l : List α) (s : Nat) :
    (sortDesc sc l).filter (fun y => sc y == s) = l.filter (fun y => sc y == s) := by
  induction l with
  | nil => rfl
  | cons x xs ih =>
    simp only [sortDesc]
    rw [filter_insertDesc, ih, List.filter_cons]
    by_cases h : sc x = s <;> simp [h]

/-- C8: hit lists of both scanners come out sorted in descending score
order, and within any equal-score class the hits appear exactly in the
order of the pre-sort results list (record order for the database scanner,
traversal order for the filesystem scanner): the output is deterministic
and stable. -/
theorem C8_hit_lists_sorted_stable (sim : List Char → List Char → Nat)
    (recs : List Record) (entries : List FileEntry) (title artist : List Char)
    (cut : Nat) :
    ((scan_rekordbox sim recs title artist cut).Pairwise (fun g h => h.score ≤ g.score)
      ∧ ∀ s, (scan_rekordbox sim recs title artist cut).filter (fun h => h.score == s)
          = (scanRekordboxRaw sim recs title artist cut).filter (fun h => h.score == s))
    ∧ ((scan_files sim entries title artist cut).Pairwise (fun g h => h.score ≤ g.score)
      ∧ ∀ s, (scan_files sim entries title artist cut).filter (fun h => h.score == s)
          = (scanFilesRaw sim entries title artist cut).filter (fun h => h.score == s)) :=
  ⟨⟨sorted_sortDesc _ _, fun s => filter_sortDesc _ _ s⟩,
   ⟨sorted_sortDesc _ _, fun s => filter_sortDesc _ _ s⟩⟩

/-- C7: the three summary counters of main count mutually exclusive,
exhaustive predicates assigned by priority (a row with both counts positive
is counted by rb_ct alone), and they always add up to the number of
processed items; rb_count is positive exactly when the database hit list is
non-empty. -/
theorem C7_classification_partition :
    (∀ rows : List ResultRow, rb_ct rows + fs_ct rows + none_ct rows = rows.length)
    ∧ (∀ r : ResultRow,
        ((0 < r.rb_count) ∨ (r.rb_count = 0 ∧ 0 < r.fs_count) ∨ (r.rb_count = 0 ∧ r.fs_count = 0))
        ∧ ¬((0 < r.rb_count) ∧ (r.rb_count = 0 ∧ 0 < r.fs_count))
        ∧ ¬((0 < r.rb_count) ∧ (r.rb_count = 0 ∧ r.fs_count = 0))
        ∧ ¬((r.rb_count = 0 ∧ 0 < r.fs_count) ∧ (r.rb_count = 0 ∧ r.fs_count = 0)))
    ∧ (∀ (rb : List RBHit) (fs : List FSHit),
        (0 < (mkRow rb fs).rb_count ↔ rb ≠ []) ∧ (0 < (mkRow rb fs).fs_count ↔ fs ≠ [])) := by
  refine ⟨?_, ?_, ?_⟩
  · intro rows
    induction rows with
    | nil => rfl
    | cons r rs ih =>
      simp only [rb_ct, fs_ct, none_ct, List.map_cons, List.sum_cons, List.length_cons] at *
      split_ifs <;> omega
  · intro r
    omega
  · intro rb fs
    simp [mkRow, List.length_pos, Nat.pos_iff_ne_zero, List.length_eq_zero]

theorem scanFilesAux_path_not_seen {sim : List Char → List Char → Nat}
    {title artist : List Char} {cut : Nat} :
    ∀ (seen : List (List Char)) (es : List FileEntry) (h : FSHit),
      h ∈ scanFilesAux sim title artist cut seen es → h.path ∉ seen := by
  intro seen es
  induction es generalizing seen with
  | nil => intro h hh; simp [scanFilesAux] at hh
  | cons e es ih =>
    intro h hh
    cases hfs : fileScore sim title artist cut e with
    | none => simp only [scanFilesAux, hfs] at hh; exact ih seen h hh
    | some sc =>
      simp only [scanFilesAux, hfs] at hh
      by_cases hs : e.resolved ∈ seen
      · rw [if_pos hs] at hh; exact ih seen h hh
      · rw [if_neg hs] at hh
        rcases List.mem_cons.mp hh with rfl | hh
        · exact hs
        · intro hc
          exact ih (e.resolved :: seen) h hh (List.mem_cons_of_mem _ hc)

theorem scanFilesAux_pairwise_ne {sim : List Char → List Char → Nat}
    {title artist : List Char} {cut : Nat} :
    ∀ (seen : List (List Char)) (es : List FileEntry),
      (scanFilesAux sim title artist cut seen es).Pairwise (fun g h => g.path ≠ h.path) := by
  intro seen es
  induction es generalizing seen with
  | nil => exact List.Pairwise.nil
  | cons e es ih =>
    cases hfs : fileScore sim title artist cut e with
    | none => simp only [scanFilesAux, hfs]; exact ih seen
    | some sc =>
      simp only [scanFilesAux, hfs]
      by_cases hs : e.resolved ∈ seen
      · rw [if_pos hs]; exact ih seen
      · rw [if_neg hs]
        refine List.pairwise_cons.mpr ⟨?_, ih (e.resolved :: seen)⟩
        intro h hh hc
        exact scanFilesAux_path_not_seen (e.resolved :: seen) es h hh
          (by rw [← hc]; exact List.mem_cons_self _ _)

theorem scanFilesAux_count (sim : List Char → List Char → Nat)
    (title artist : List Char) (cut : Nat) (p : List Char) :
    ∀ (seen : List (List Char)) (es : List FileEntry),
      ((scanFilesAux sim title artist cut seen es).filter (fun h => h.path == p)).length
      = if p ∈ seen then 0
        else if es.any (fun e => e.resolved == p && (fileScore sim title artist cut e).isSome)
        then 1 else 0 := by
  intro seen es
  induction es generalizing seen with
  | nil =>
    simp only [scanFilesAux, List.filter_nil, List.length_nil, List.any_nil]
    by_cases hs : p ∈ seen <;> simp [hs]
  | cons e es ih =>
    cases hfs : fileScore sim title artist cut e with
    | none =>
      simp only [scanFilesAux, hfs, List.any_cons]
      rw [ih seen]
      simp [hfs]
    | some sc =>
      simp only [scanFilesAux, hfs, List.any_cons]
      by_cases hs : e.resolved ∈ seen
      · rw [if_pos hs, ih seen]
        by_cases hp : p ∈ seen
        · simp [hp]
        · have hne : e.resolved ≠ p := fun hq => hp (hq ▸ hs)
          simp [hp, hne]
      · rw [if_neg hs]
        by_cases hep : e.resolved = p
        · subst hep
          rw [List.filter_cons]
          have hpt : ((⟨sc, nameOf e, e.resolved⟩ : FSHit).path == e.resolved) = true := by
            simp
          rw [if_pos hpt, List.length_cons, ih (e.resolved :: seen)]
          simp [hfs, hs]
        · rw [List.filter_cons]
          have hpf : ((⟨sc, nameOf e, e.resolved⟩ : FSHit).path == p) = false := by
            simp [hep]
          rw [if_neg (by simp [hpf]), ih (e.resolved :: seen)]
          by_cases hp : p ∈ seen
          · simp [hp, List.mem_cons, hep, fun h : p = e.resolved => hep h.symm]
          · simp only [List.mem_cons, hp, or_false]
            simp [hep]
            intro h
            exact absurd h.symm hep

/-- C9: no two hits of a filesystem scan carry the same canonical resolved
path, and whenever some accepted candidate has resolved path p the scan
emits exactly one hit with that path, however often the path is visited. -/
theorem C9_fs_hits_dedup_by_path (sim : List Char → List Char → Nat)
    (entries : List FileEntry) (title artist : List Char) (cut : Nat) :
    (scan_files sim entries title artist cut).Pairwise (fun g h => g.path ≠ h.path)
    ∧ ∀ p : List Char,
        (∃ e ∈ entries.filter globDotName, e.resolved = p
          ∧ (fileScore sim title artist cut e).isSome = true)
        → ((scan_files sim entries title artist cut).filter
            (fun h => h.path == p)).length = 1 := by
  constructor
  · exact (List.Perm.pairwise_iff (fun hxy h => hxy h.symm)
      (perm_sortDesc (fun h => h.score) _)).mpr (scanFilesAux_pairwise_ne [] _)
  · intro p hex
    have hperm := (perm_sortDesc (fun h => h.score)
      (scanFilesRaw sim entries title artist cut)).filter (fun h => h.path == p)
    rw [scan_files, hperm.length_eq, scanFilesRaw,
      scanFilesAux_count sim title artist cut p []]
    obtain ⟨e, he, hp, hsome⟩ := hex
    have hany : (entries.filter globDotName).any
        (fun e => e.resolved == p && (fileScore sim title artist cut e).isSome) = true := by
      refine List.any_eq_true.mpr ⟨e, he, ?_⟩
      simp [hp, hsome]
    simp [hany]

theorem C9_fs_hits_dedup_by_path_witness :
    ((scan_files simEq
        [⟨[strL r"a.mp3"], false, strL r"/r/a.mp3"⟩,
         ⟨[strL r"b", strL r"a.mp3"], false, strL r"/r/a.mp3"⟩]
        (strL r"a") [] 0).filter (fun h => h.path == strL r"/r/a.mp3")).length = 1 :=
  (C9_fs_hits_dedup_by_path simEq
      [⟨[strL r"a.mp3"], false, strL r"/r/a.mp3"⟩,
       ⟨[strL r"b", strL r"a.mp3"], false, strL r"/r/a.mp3"⟩]
      (strL r"a") [] 0).2 (strL r"/r/a.mp3") (by decide)

/-- C6 as stated is violated at threshold 0: the database scanner returns a
score-0 hit for every record on the empty query, because 0 >= 0. -/
theorem C6_cex :
    scan_rekordbox simEq
      [⟨some (some (strL r"song")), some ⟨some (some (strL r"artist"))⟩⟩] [] [] 0
    ≠ [] := by decide

/-- C6 amended: the empty query yields no hits from scan_files at every
threshold, and none from scan_rekordbox whenever the threshold is at least
1; in both scanners the loop score stays 0 and no branch consults the
scorer (the result does not depend on sim). -/
theorem C6_empty_query (sim : List Char → List Char → Nat) (recs : List Record)
    (entries : List FileEntry) (cut : Nat) :
    (1 ≤ cut → scan_rekordbox sim recs [] [] cut = [])
    ∧ scan_files sim entries [] [] cut = [] := by
  constructor
  · intro hcut
    have hraw : scanRekordboxRaw sim recs [] [] cut = [] := by
      induction recs with
      | nil => rfl
      | cons r rs ih =>
        have hb : bestScoreFor sim [] [] r = 0 := rfl
        simp only [scanRekordboxRaw, List.filterMap_cons] at *
        rw [hb, if_neg (by omega)]
        exact ih
    rw [scan_rekordbox, hraw]
    rfl
  · have haux : ∀ es seen, scanFilesAux sim [] [] cut seen es = [] := by
      intro es
      induction es with
      | nil => intro seen; rfl
      | cons e es ih =>
        intro seen
        have hf : fileScore sim [] [] cut e = none := rfl
        simp only [scanFilesAux, hf]
        exact ih seen
    rw [scan_files, scanFilesRaw, haux]
    rfl

theorem C6_empty_query_witness :
    scan_rekordbox simEq
      [⟨some (some (strL r"song")), some ⟨some (some (strL r"artist"))⟩⟩] [] [] 80 = []
    ∧ scan_files simEq [⟨[strL r"a.mp3"], false, strL r"/r/a.mp3"⟩] [] [] 80 = [] :=
  ⟨(C6_empty_query simEq
      [⟨some (some (strL r"song")), some ⟨some (some (strL r"artist"))⟩⟩]
      [⟨[strL r"a.mp3"], false, strL r"/r/a.mp3"⟩] 80).1 (by omega),
   (C6_empty_query simEq
      [⟨some (some (strL r"song")), some ⟨some (some (strL r"artist"))⟩⟩]
      [⟨[strL r"a.mp3"], false, strL r"/r/a.mp3"⟩] 80).2⟩

theorem mem_of_mem_scanFilesAux {sim : List Char → List Char → Nat}
    {title artist : List Char} {cut : Nat} :
    ∀ {seen : List (List Char)} {es : List FileEntry} {h : FSHit},
      h ∈ scanFilesAux sim title artist cut seen es →
      ∃ e ∈ es, ∃ sc, fileScore sim title artist cut e = some sc
        ∧ h = ⟨sc, nameOf e, e.resolved⟩ := by
  intro seen es
  induction es generalizing seen with
  | nil => intro h hh; simp [scanFilesAux] at hh
  | cons e es ih =>
    intro h hh
    cases hfs : fileScore sim title artist cut e with
    | none =>
      simp only [scanFilesAux, hfs] at hh
      obtain ⟨e', he', sc, hsc, heq⟩ := ih hh
      exact ⟨e', List.mem_cons_of_mem _ he', sc, hsc, heq⟩
    | some sc =>
      simp only [scanFilesAux, hfs] at hh
      by_cases hs : e.resolved ∈ seen
      · rw [if_pos hs] at hh
        obtain ⟨e', he', sc', hsc, heq⟩ := ih hh
        exact ⟨e', List.mem_cons_of_mem _ he', sc', hsc, heq⟩
      · rw [if_neg hs] at hh
        rcases List.mem_cons.mp hh with rfl | hh
        · exact ⟨e, List.mem_cons_self _ _, sc, hfs, rfl⟩
        · obtain ⟨e', he', sc', hsc, heq⟩ := ih hh
          exact ⟨e', List.mem_cons_of_mem _ he', sc', hsc, heq⟩

/-- C4 fails in both directions: a regular file whose name has no dot is
never scanned even though its title score clears the threshold, and a
directory whose name has a dot is scanned and becomes a hit. -/
theorem C4_cex :
    scan_files simEq [⟨[strL r"song"], false, strL r"/r/song"⟩] (strL r"song") [] 50 = []
    ∧ 50 ≤ fileTitleScore simEq (strL r"song") ⟨[strL r"song"], false, strL r"/r/song"⟩
    ∧ scan_files simEq [⟨[strL r"Album.2020"], true, strL r"/r/Album.2020"⟩]
        (strL r"album") [] 50
      = [⟨100, strL r"Album.2020", strL r"/r/Album.2020"⟩]
    ∧ (⟨[strL r"Album.2020"], true, strL r"/r/Album.2020"⟩ : FileEntry).isDir = true :=
  ⟨by decide, by decide, by decide, rfl⟩

/-- C4 amended: the filesystem scanner's candidates are exactly the entries
matched by rglob("*.*") — those whose final name component contains a dot,
whether regular file or directory; every hit originates from such an entry,
carrying its resolved path and its name. -/
theorem C4_candidates_are_dot_names (sim : List Char → List Char → Nat)
    (entries : List FileEntry) (title artist : List Char) (cut : Nat) (h : FSHit)
    (hmem : h ∈ scan_files sim entries title artist cut) :
    ∃ e ∈ entries, globDotName e = true ∧ h.path = e.resolved ∧ h.item = nameOf e := by
  obtain ⟨e, he, sc, hsc, rfl⟩ := mem_of_mem_scanFilesAux (mem_sortDesc.mp hmem)
  obtain ⟨hee, hdot⟩ := List.mem_filter.mp he
  exact ⟨e, hee, hdot, rfl, rfl⟩

theorem C4_candidates_are_dot_names_witness :
    ∃ e ∈ [(⟨[strL r"Album.2020"], true, strL r"/r/Album.2020"⟩ : FileEntry)],
      globDotName e = true
      ∧ (strL r"/r/Album.2020") = e.resolved ∧ (strL r"Album.2020") = nameOf e :=
  C4_candidates_are_dot_names simEq
    [⟨[strL r"Album.2020"], true, strL r"/r/Album.2020"⟩] (strL r"album") [] 50
    ⟨100, strL r"Album.2020", strL r"/r/Album.2020"⟩ (by decide)

/-- C5 fails on the empty string: the tokenizer itself drops the empty
piece and returns the empty sequence, not a one-element sequence. -/
theorem C5_cex : split_artists (strL r"") ≠ [strL r""] := by decide

/-- C5 amended: the two non-empty examples hold as stated, but on the
empty string split_artists returns the empty sequence; the single empty
token fallback is supplied by its callers, not by the tokenizer. -/
theorem C5_split_artists_examples :
    split_artists (strL r"A & B") = [strL r"A", strL r"B"]
    ∧ split_artists (strL r"A, B and C") = [strL r"A", strL r"B", strL r"C"]
    ∧ split_artists (strL r"") = [] :=
  ⟨by decide, by decide, by decide⟩

/-- C10 fails for a present Artist.Name attribute whose value is None: the
extraction keeps the Python None (the source applies no or-coercion on
that line), so a hit label renders it as "None", not as the empty string. -/
theorem C10_cex :
    scan_rekordbox simEq [⟨some (some (strL r"song")), some ⟨some none⟩⟩]
      (strL r"song") [] 0
    = [⟨100, strL r"None - song"⟩]
    ∧ strL r"None - song" ≠ strL r" - song" :=
  ⟨by decide, by decide⟩

/-- C10 amended: the extraction of lines 104-110 is total and defaults a
missing Title, a None Title, a missing-or-None Artist and a missing
Artist.Name to the empty string; but an Artist.Name present with value
None stays None: it is normalized to the empty string for scoring, while
the f-string label renders it as "None". -/
theorem C10_record_field_defaults :
    (∀ r : Record, r.Title = none ∨ r.Title = some none → rawTitleOf r = [])
    ∧ (∀ r : Record, r.Artist = none → rawArtistOf r = some [])
    ∧ (∀ (r : Record) (a : ArtistObj), r.Artist = some a → a.Name = none →
        rawArtistOf r = some [])
    ∧ (∀ (r : Record) (a : ArtistObj), r.Artist = some a → a.Name = some none →
        rawArtistOf r = none
        ∧ norm (pyOrEmpty (rawArtistOf r)) = []
        ∧ pyShow (rawArtistOf r) = strL r"None") := by
  refine ⟨?_, ?_, ?_, ?_⟩
  · rintro r (ht | ht) <;> simp [rawTitleOf, ht]
  · intro r ha
    simp [rawArtistOf, ha]
  · intro r a ha hn
    simp [rawArtistOf, ha, hn]
  · intro r a ha hn
    have hra : rawArtistOf r = none := by simp [rawArtistOf, ha, hn]
    exact ⟨hra, by rw [hra]; decide, by rw [hra]; rfl⟩

theorem C10_record_field_defaults_witness :
    rawTitleOf ⟨none, none⟩ = []
    ∧ rawArtistOf ⟨none, none⟩ = some []
    ∧ rawArtistOf ⟨some (some (strL r"t")), some ⟨none⟩⟩ = some []
    ∧ rawArtistOf ⟨some (some (strL r"t")), some ⟨some none⟩⟩ = none :=
  ⟨C10_record_field_defaults.1 ⟨none, none⟩ (Or.inl rfl),
   C10_record_field_defaults.2.1 ⟨none, none⟩ rfl,
   C10_record_field_defaults.2.2.1 ⟨some (some (strL r"t")), some ⟨none⟩⟩ ⟨none⟩ rfl rfl,
   (C10_record_field_defaults.2.2.2 ⟨some (some (strL r"t")), some ⟨some none⟩⟩
     ⟨some none⟩ rfl rfl).1⟩

theorem nested_foldl_max (f : β → γ → Nat) (as : List β) (bs : List γ) (a : Nat) :
    as.foldl (fun acc qa => bs.foldl (fun acc2 da => max acc2 (f qa da)) acc) a
    = (as.flatMap (fun qa => bs.map (f qa))).foldl max a := by
  induction as generalizing a with
  | nil => rfl
  | cons q qs ih =>
    simp only [List.foldl_cons, List.flatMap_cons, List.foldl_append, List.foldl_map]
    exact ih _

theorem bestScoreFor_eq_pairsMax (sim : List Char → List Char → Nat)
    (title artist : List Char) (r : Record) (ht : title ≠ []) (ha : artist ≠ []) :
    bestScoreFor sim title artist r = pairsMax sim title artist r := by
  have hcond : ¬title.isEmpty ∧ ¬artist.isEmpty := by
    simp [List.isEmpty_iff, ht, ha]
  rw [bestScoreFor, if_pos hcond, pairsMax]
  exact nested_foldl_max _ _ _ 0

theorem mem_scanRekordboxRaw {sim : List Char → List Char → Nat} {recs : List Record}
    {title artist : List Char} {cut : Nat} {h : RBHit} :
    h ∈ scanRekordboxRaw sim recs title artist cut
    ↔ ∃ r ∈ recs, cut ≤ bestScoreFor sim title artist r
        ∧ h = ⟨bestScoreFor sim title artist r, recordLabel r⟩ := by
  simp only [scanRekordboxRaw, List.mem_filterMap]
  constructor
  · rintro ⟨r, hr, hopt⟩
    by_cases hc : cut ≤ bestScoreFor sim title artist r
    · rw [if_pos hc] at hopt
      exact ⟨r, hr, hc, (Option.some.injEq _ _ ▸ hopt).symm⟩
    · rw [if_neg hc] at hopt
      cases hopt
  · rintro ⟨r, hr, hc, rfl⟩
    exact ⟨r, hr, by rw [if_pos hc]⟩

/-- C2: in both-present mode the database scanner scores every record as
the maximum composite-pair similarity the spec describes (the loop
accumulation equals the maximum over the token product, 0 for an empty
product), and a hit labeled with the record's raw, non-normalized fields
and carrying that score is returned exactly when the score clears the
threshold. -/
theorem C2_scan_rekordbox_both_mode (sim : List Char → List Char → Nat)
    (recs : List Record) (title artist : List Char) (cut : Nat)
    (ht : title ≠ []) (ha : artist ≠ []) (r : Record) (hr : r ∈ recs) :
    bestScoreFor sim title artist r = pairsMax sim title artist r
    ∧ ((∃ h ∈ scan_rekordbox sim recs title artist cut,
          h.item = recordLabel r ∧ h.score = pairsMax sim title artist r)
        ↔ cut ≤ pairsMax sim title artist r) := by
  have hbp : ∀ r' : Record, bestScoreFor sim title artist r'
      = pairsMax sim title artist r' := fun r' =>
    bestScoreFor_eq_pairsMax sim title artist r' ht ha
  refine ⟨hbp r, ?_, ?_⟩
  · rintro ⟨h, hmem, hitem, hscore⟩
    obtain ⟨r', hr', hc', rfl⟩ := mem_scanRekordboxRaw.mp (mem_sortDesc.mp hmem)
    have : bestScoreFor sim title artist r' = pairsMax sim title artist r := hscore
    rw [this] at hc'
    exact hc'
  · intro hc
    refine ⟨⟨pairsMax sim title artist r, recordLabel r⟩, ?_, rfl, rfl⟩
    refine mem_sortDesc.mpr (mem_scanRekordboxRaw.mpr ⟨r, hr, ?_, ?_⟩)
    · rw [hbp r]; exact hc
    · rw [hbp r]

theorem C2_scan_rekordbox_both_mode_witness :
    ∃ h ∈ scan_rekordbox simEq
        [⟨some (some (strL r"Strobe (Original Mix)")), some ⟨some (some (strL r"Deadmau5"))⟩⟩]
        (strL r"strobe") (strL r"deadmau5") 80,
      h.item = recordLabel
          ⟨some (some (strL r"Strobe (Original Mix)")), some ⟨some (some (strL r"Deadmau5"))⟩⟩
      ∧ h.score = pairsMax simEq (strL r"strobe") (strL r"deadmau5")
          ⟨some (some (strL r"Strobe (Original Mix)")), some ⟨some (some (strL r"Deadmau5"))⟩⟩ :=
  ((C2_scan_rekordbox_both_mode simEq
      [⟨some (some (strL r"Strobe (Original Mix)")), some ⟨some (some (strL r"Deadmau5"))⟩⟩]
      (strL r"strobe") (strL r"deadmau5") 80 (by decide) (by decide)
      ⟨some (some (strL r"Strobe (Original Mix)")), some ⟨some (some (strL r"Deadmau5"))⟩⟩
      (by decide)).2).mpr (by decide)

theorem scanFilesAux_eq_filterMap (sim : List Char → List Char → Nat)
    (title artist : List Char) (cut : Nat) :
    ∀ (seen : List (List Char)) (es : List FileEntry),
      (es.map (fun e => e.resolved)).Nodup →
      (∀ e ∈ es, e.resolved ∉ seen) →
      scanFilesAux sim title artist cut seen es
      = es.filterMap (fun e => (fileScore sim title artist cut e).map
          (fun sc => (⟨sc, nameOf e, e.resolved⟩ : FSHit))) := by
  intro seen es
  induction es generalizing seen with
  | nil => intro _ _; rfl
  | cons e es ih =>
    intro hnd hdisj
    rw [List.map_cons, List.nodup_cons] at hnd
    obtain ⟨hhead, htail⟩ := hnd
    cases hfs : fileScore sim title artist cut e with
    | none =>
      simp only [scanFilesAux, hfs, List.filterMap_cons, Option.map_none']
      exact ih seen htail (fun e' he' => hdisj e' (List.mem_cons_of_mem _ he'))
    | some sc =>
      have hns : e.resolved ∉ seen := hdisj e (List.mem_cons_self _ _)
      simp only [scanFilesAux, hfs, List.filterMap_cons, Option.map_some', if_neg hns]
      congr 1
      refine ih (e.resolved :: seen) htail ?_
      intro e' he'
      rw [List.mem_cons]
      rintro (hc | hc)
      · exact hhead (hc ▸ List.mem_map_of_mem (fun x => x.resolved) he')
      · exact hdisj e' (List.mem_cons_of_mem _ he') hc

theorem mem_scanFilesRaw_of_nodup {sim : List Char → List Char → Nat}
    {entries : List FileEntry} {title artist : List Char} {cut : Nat}
    (hnd : ((entries.filter globDotName).map (fun e => e.resolved)).Nodup) {h : FSHit} :
    h ∈ scanFilesRaw sim entries title artist cut
    ↔ ∃ e ∈ entries.filter globDotName, ∃ sc,
        fileScore sim title artist cut e = some sc ∧ h = ⟨sc, nameOf e, e.resolved⟩ := by
  rw [scanFilesRaw,
    scanFilesAux_eq_filterMap sim title artist cut [] _ hnd (by simp)]
  simp only [List.mem_filterMap, Option.map_eq_some']
  constructor
  · rintro ⟨e, he, sc, hsc, rfl⟩
    exact ⟨e, he, sc, hsc, rfl⟩
  · rintro ⟨e, he, sc, hsc, rfl⟩
    exact ⟨e, he, sc, hsc, rfl⟩

/-- C1: with a non-empty title and artist and candidate paths resolving
injectively, the filesystem scanner returns a hit for a candidate — with
recorded score min(titleScore, artistScore) — exactly when the title score
and the best directory-token/artist-token score each clear the threshold;
in particular a title score of 100 produces no hit while the artist score
is below the threshold. -/
theorem C1_scan_files_and_semantics (sim : List Char → List Char → Nat)
    (entries : List FileEntry) (title artist : List Char) (cut : Nat)
    (ht : title ≠ []) (ha : artist ≠ [])
    (hnd : ((entries.filter globDotName).map (fun e => e.resolved)).Nodup)
    (e : FileEntry) (he : e ∈ entries.filter globDotName) :
    (∃ h ∈ scan_files sim entries title artist cut,
        h.path = e.resolved
        ∧ h.score = min (fileTitleScore sim title e) (fileArtistScore sim artist e))
    ↔ (cut ≤ fileTitleScore sim title e ∧ cut ≤ fileArtistScore sim artist e) := by
  have hcond : ¬title.isEmpty ∧ ¬artist.isEmpty := by
    simp [List.isEmpty_iff, ht, ha]
  have hfs_eq : ∀ e' : FileEntry, fileScore sim title artist cut e'
      = if cut ≤ fileTitleScore sim title e' ∧ cut ≤ fileArtistScore sim artist e' then
          some (min (fileTitleScore sim title e') (fileArtistScore sim artist e'))
        else none := by
    intro e'
    rw [fileScore, if_pos hcond]
  constructor
  · rintro ⟨h, hmem, hpath, hscore⟩
    obtain ⟨e', he', sc, hsc, rfl⟩ :=
      (mem_scanFilesRaw_of_nodup hnd).mp (mem_sortDesc.mp hmem)
    have hee : e' = e := List.inj_on_of_nodup_map hnd he' he hpath
    subst hee
    rw [hfs_eq] at hsc
    by_cases hc : cut ≤ fileTitleScore sim title e' ∧ cut ≤ fileArtistScore sim artist e'
    · exact hc
    · rw [if_neg hc] at hsc
      cases hsc
  · intro hc
    refine ⟨⟨min (fileTitleScore sim title e) (fileArtistScore sim artist e),
      nameOf e, e.resolved⟩, ?_, rfl, rfl⟩
    refine mem_sortDesc.mpr ((mem_scanFilesRaw_of_nodup hnd).mpr ⟨e, he, _, ?_, rfl⟩)
    rw [hfs_eq, if_pos hc]

theorem C1_scan_files_and_semantics_witness :
    ¬(90 ≤ fileArtistScore simEq (strL r"artist x")
        ⟨[strL r"Artist Z", strL r"Track Y.flac"], false, strL r"/m/Artist Z/Track Y.flac"⟩)
    ∧ fileTitleScore simEq (strL r"track y")
        ⟨[strL r"Artist Z", strL r"Track Y.flac"], false, strL r"/m/Artist Z/Track Y.flac"⟩ = 100
    ∧ ¬(∃ h ∈ scan_files simEq
          [⟨[strL r"Artist Z", strL r"Track Y.flac"], false, strL r"/m/Artist Z/Track Y.flac"⟩]
          (strL r"track y") (strL r"artist x") 90,
        h.path = (⟨[strL r"Artist Z", strL r"Track Y.flac"], false,
            strL r"/m/Artist Z/Track Y.flac"⟩ : FileEntry).resolved
        ∧ h.score = min
            (fileTitleScore simEq (strL r"track y")
              ⟨[strL r"Artist Z", strL r"Track Y.flac"], false, strL r"/m/Artist Z/Track Y.flac"⟩)
            (fileArtistScore simEq (strL r"artist x")
              ⟨[strL r"Artist Z", strL r"Track Y.flac"], false, strL r"/m/Artist Z/Track Y.flac"⟩)) :=
  ⟨by decide, by decide, fun hex =>
    absurd ((C1_scan_files_and_semantics simEq
        [⟨[strL r"Artist Z", strL r"Track Y.flac"], false, strL r"/m/Artist Z/Track Y.flac"⟩]
        (strL r"track y") (strL r"artist x") 90 (by decide) (by decide) (by decide)
        ⟨[strL r"Artist Z", strL r"Track Y.flac"], false, strL r"/m/Artist Z/Track Y.flac"⟩
        (by decide)).mp hex).2 (by decide)⟩

theorem char_toNat_ofNat (n : Nat) (h : n < 55296) : (Char.ofNat n).toNat = n := by
  unfold Char.ofNat
  rw [dif_pos (Or.inl h)]
  simp [Char.ofNatAux, Char.toNat, UInt32.ofNat', UInt32.toNat]

theorem toLower_idem (c : Char) : c.toLower.toLower = c.toLower := by
  by_cases h : c.toNat ≥ 65 ∧ c.toNat ≤ 90
  · have h1 : c.toLower = Char.ofNat (c.toNat + 32) := by
      simp only [Char.toLower]
      rw [if_pos h]
    have h2 : (Char.ofNat (c.toNat + 32)).toNat = c.toNat + 32 :=
      char_toNat_ofNat _ (by omega)
    rw [h1]
    simp only [Char.toLower, h2]
    rw [if_neg (by omega)]
  · have h1 : c.toLower = c := by
      simp only [Char.toLower]
      rw [if_neg h]
    rw [h1, h1]

theorem dropWhile_idem (p : α → Bool) (l : List α) :
    (l.dropWhile p).dropWhile p = l.dropWhile p := by
  induction l with
  | nil => rfl
  | cons a l ih =>
    by_cases h : p a
    · simp [List.dropWhile_cons, h, ih]
    · simp [List.dropWhile_cons, h]

theorem dropWhile_eq_drop (p : α → Bool) (l : List α) :
    ∃ n, l.dropWhile p = l.drop n := by
  induction l with
  | nil => exact ⟨0, rfl⟩
  | cons a l ih =>
    by_cases h : p a
    · obtain ⟨n, hn⟩ := ih
      exact ⟨n + 1, by simp [List.dropWhile_cons, h, hn]⟩
    · exact ⟨0, by simp [List.dropWhile_cons, h]⟩

theorem dropWhile_take_of_fix (p : α → Bool) (y : List α) (m : Nat)
    (hfix : y.dropWhile p = y) : (y.take m).dropWhile p = y.take m := by
  cases y with
  | nil => simp
  | cons a ys =>
    have hpa : p a = false := by
      by_contra hc
      have hpt : p a = true := by simpa using hc
      rw [List.dropWhile_cons, if_pos hpt] at hfix
      have hlen := congrArg List.length hfix
      have hle := (List.dropWhile_sublist (l := ys) p).length_le
      simp at hlen
      omega
    cases m with
    | zero => simp
    | succ m =>
      rw [List.take_succ_cons, List.dropWhile_cons, if_neg (by simp [hpa])]

theorem stripL_idem (l : List Char) : stripL (stripL l) = stripL l := by
  have hAfix : (l.dropWhile isPySpace).dropWhile isPySpace = l.dropWhile isPySpace :=
    dropWhile_idem _ _
  have hBfix :
      ((l.dropWhile isPySpace).reverse.dropWhile isPySpace).dropWhile isPySpace
      = (l.dropWhile isPySpace).reverse.dropWhile isPySpace := dropWhile_idem _ _
  have hBrev :
      (((l.dropWhile isPySpace).reverse.dropWhile isPySpace).reverse).dropWhile isPySpace
      = ((l.dropWhile isPySpace).reverse.dropWhile isPySpace).reverse := by
    obtain ⟨n, hn⟩ := dropWhile_eq_drop isPySpace (l.dropWhile isPySpace).reverse
    rw [hn, List.reverse_drop, List.reverse_reverse, List.length_reverse]
    exact dropWhile_take_of_fix _ _ _ hAfix
  rw [stripL, stripL, hBrev, List.reverse_reverse, hBfix]

theorem mem_pyRemoveAux (pat : List Char) :
    ∀ (fuel : Nat) (s : List Char) (c : Char), c ∈ pyRemoveAux pat fuel s → c ∈ s := by
  intro fuel
  induction fuel with
  | zero => intro s c hc; exact hc
  | succ fuel ih =>
    intro s c hc
    cases s with
    | nil => simp [pyRemoveAux] at hc
    | cons a rest =>
      simp only [pyRemoveAux] at hc
      by_cases h : pat ≠ [] ∧ pat.isPrefixOf (a :: rest)
      · rw [if_pos h] at hc
        exact List.mem_of_mem_drop (ih _ c hc)
      · rw [if_neg h] at hc
        rcases List.mem_cons.mp hc with rfl | hc
        · exact List.mem_cons_self _ _
        · exact List.mem_cons_of_mem _ (ih _ c hc)

theorem mem_pyRemove {pat s : List Char} {c : Char} (h : c ∈ pyRemove pat s) : c ∈ s :=
  mem_pyRemoveAux pat s.length s c h

theorem mem_pySubAux (m : List Char → Option Nat) :
    ∀ (fuel : Nat) (s : List Char) (c : Char), c ∈ pySubAux m fuel s → c ∈ s := by
  intro fuel
  induction fuel with
  | zero => intro s c hc; exact hc
  | succ fuel ih =>
    intro s c hc
    cases s with
    | nil => simp [pySubAux] at hc
    | cons a rest =>
      cases hm : m (a :: rest) with
      | none =>
        simp only [pySubAux, hm] at hc
        rcases List.mem_cons.mp hc with rfl | hc
        · exact List.mem_cons_self _ _
        · exact List.mem_cons_of_mem _ (ih _ c hc)
      | some n =>
        cases n with
        | zero =>
          simp only [pySubAux, hm] at hc
          rcases List.mem_cons.mp hc with rfl | hc
          · exact List.mem_cons_self _ _
          · exact List.mem_cons_of_mem _ (ih _ c hc)
        | succ n =>
          simp only [pySubAux, hm] at hc
          exact List.mem_cons_of_mem _ (List.mem_of_mem_drop (ih _ c hc))

theorem mem_pySub {m : List Char → Option Nat} {s : List Char} {c : Char}
    (h : c ∈ pySub m s) : c ∈ s :=
  mem_pySubAux m s.length s c h

theorem mem_stripL {c : Char} {l : List Char} (h : c ∈ stripL l) : c ∈ l := by
  rw [stripL] at h
  have h1 := List.mem_reverse.mp h
  have h2 := List.Sublist.mem h1 (List.dropWhile_sublist _)
  have h3 := List.mem_reverse.mp h2
  exact List.Sublist.mem h3 (List.dropWhile_sublist _)

theorem mem_mixFold (c : Char) :
    ∀ (pats : List (List Char × List Char × List Char)) (s : List Char),
      c ∈ pats.foldl (fun t p => pyRemove p.2.2 (pyRemove p.2.1 (pyRemove p.1 t))) s →
      c ∈ s := by
  intro pats
  induction pats with
  | nil => intro s hc; exact hc
  | cons p ps ih =>
    intro s hc
    exact mem_pyRemove (mem_pyRemove (mem_pyRemove (ih _ hc)))

theorem mem_strip_mix_tags {c : Char} {s : List Char} (h : c ∈ strip_mix_tags s) :
    c ∈ s :=
  mem_mixFold c _ s (mem_stripL h)

theorem mem_featFold (c : Char) :
    ∀ (ms : List (List Char → Option Nat)) (s : List Char),
      c ∈ ms.foldl (fun t m => pySub m t) s → c ∈ s := by
  intro ms
  induction ms with
  | nil => intro s hc; exact hc
  | cons m ms ih =>
    intro s hc
    exact mem_pySub (ih _ hc)

theorem mem_strip_features {c : Char} {s : List Char} (h : c ∈ strip_features s) :
    c ∈ s :=
  mem_featFold c _ s (mem_stripL h)

theorem mem_norm {c : Char} {s : List Char} (h : c ∈ norm s) : c ∈ lowerL s :=
  mem_strip_mix_tags (mem_strip_features (mem_stripL h))

theorem lowerL_norm (s : List Char) : lowerL (norm s) = norm s := by
  have hfix : ∀ c ∈ norm s, c.toLower = c := by
    intro c hc
    obtain ⟨c', _, rfl⟩ := List.mem_map.mp (mem_norm hc)
    exact toLower_idem c'
  rw [lowerL, List.map_congr_left hfix]
  exact List.map_id' _

/-- C3 as stated is false on the code: removing one "original mix"
occurrence joins the surrounding characters into a fresh occurrence, which
the single left-to-right replace pass does not revisit; the second norm
pass then removes it. -/
theorem C3_cex :
    norm (norm (strL r"origoriginal mixinal mix"))
    ≠ norm (strL r"origoriginal mixinal mix") := by decide

/-- C3 amended: norm is idempotent exactly on inputs whose normalization
leaves no removable annotation behind — whenever one pass's output is a
fixed point of the two stripping passes (which holds unless a removal seam
recreates a mix or feature annotation), a second norm changes nothing. -/
theorem C3_norm_conditionally_idempotent (s : List Char)
    (h1 : strip_mix_tags (norm s) = norm s)
    (h2 : strip_features (norm s) = norm s) :
    norm (norm s) = norm s := by
  have hn : norm (norm s) = stripL (strip_features (strip_mix_tags (lowerL (norm s)))) := rfl
  rw [hn, lowerL_norm s, h1, h2]
  have hn2 : norm s = stripL (strip_features (strip_mix_tags (lowerL s))) := rfl
  rw [hn2]
  exact stripL_idem _

theorem C3_norm_conditionally_idempotent_witness :
    (strip_mix_tags (norm (strL r"Strobe (Original Mix)"))
        = norm (strL r"Strobe (Original Mix)")
      ∧ strip_features (norm (strL r"Strobe (Original Mix)"))
        = norm (strL r"Strobe (Original Mix)"))
    ∧ norm (norm (strL r"Strobe (Original Mix)")) = norm (strL r"Strobe (Original Mix)") :=
  ⟨⟨by decide, by decide⟩,
    C3_norm_conditionally_idempotent (strL r"Strobe (Original Mix)") (by decide) (by decide)⟩

